import Mathlib

/-!
Shallow embedding of the Pony-to-Affine lowering pass
(`src/pony/mlir/LowerToAffineLoops.cpp`): the rewrite rules that turn
tensor-level operations (elementwise add/mul, transpose, literal
constants, matrix multiply-accumulate, entry point, print pass-through,
return) into explicit loop nests over allocated buffers, and the partial
conversion driver that applies them.
-/

namespace PonyLowering

/-- Scalar element values. The source emits f64 constants and `arith`
float operations; the embedding models the scalar arithmetic exactly,
over the integers. -/
abbrev Scalar := Int

/-- A lowered memref buffer: a map from coordinate tuples to the scalar
stored there, `none` at coordinates never written. -/
def Buf : Type := List Nat → Option Scalar

/-- A fresh allocation (`memref.alloc`): no coordinate holds a value yet. -/
def Buf.empty : Buf := fun _ => none

/-- An indexed store (`AffineStoreOp`) into a buffer. -/
def Buf.store (b : Buf) (c : List Nat) (v : Option Scalar) : Buf :=
  fun d => if d = c then v else b d

/-- Replay a list of stores, in order, on a buffer. -/
def Buf.replay (b : Buf) (ss : List (List Nat × Option Scalar)) : Buf :=
  ss.foldl (fun b p => b.store p.1 p.2) b

/-- Row-major enumeration of the coordinates of a shape, the order in
which the loop nest built by `buildAffineLoopNest` visits coordinate
tuples: the outermost loop is dimension 0 and the last dimension varies
fastest. -/
def coords : List Nat → List (List Nat)
  | [] => [[]]
  | d :: ds => (List.range d).flatMap fun i => (coords ds).map fun c => i :: c

/-- Shared loop-nest lowering (`lowerOpToLoops` in the source): allocate
a buffer of the result shape and, at every coordinate of that shape in
row-major loop order, store the value the per-iteration callback
returns there. -/
def lowerOpToLoops (shape : List Nat) (f : List Nat → Scalar) : Buf :=
  Buf.replay Buf.empty ((coords shape).map fun c => (c, some (f c)))

/-- Lowering of the elementwise binary operations (`BinaryOpLowering`):
at each coordinate, load both operands there and combine them with the
scalar operation. -/
def binaryOpLowering (op : Scalar → Scalar → Scalar) (shape : List Nat)
    (lhs rhs : List Nat → Scalar) : Buf :=
  lowerOpToLoops shape fun ivs => op (lhs ivs) (rhs ivs)

/-- Lowering of `pony.add` (`AddOpLowering`, scalar op `arith.addf`). -/
def addOpLowering : List Nat → (List Nat → Scalar) → (List Nat → Scalar) → Buf :=
  binaryOpLowering (· + ·)

/-- Lowering of `pony.mul` (`MulOpLowering`, scalar op `arith.mulf`). -/
def mulOpLowering : List Nat → (List Nat → Scalar) → (List Nat → Scalar) → Buf :=
  binaryOpLowering (· * ·)

/-- Lowering of `pony.transpose` (`TransposeOpLowering`): at each
coordinate of the result shape, load the input at the end-to-end
reversed coordinate tuple. -/
def transposeOpLowering (shape : List Nat) (input : List Nat → Scalar) : Buf :=
  lowerOpToLoops shape fun ivs => input ivs.reverse

theorem Buf.store_ne (b : Buf) (c : List Nat) (v : Option Scalar)
    (d : List Nat) (h : d ≠ c) : b.store c v d = b d := by
  simp [Buf.store, h]

theorem Buf.store_eq (b : Buf) (c : List Nat) (v : Option Scalar) :
    b.store c v c = v := by
  simp [Buf.store]

theorem Buf.replay_not_mem (ss : List (List Nat × Option Scalar)) :
    ∀ (b : Buf) (c : List Nat), c ∉ ss.map Prod.fst → b.replay ss c = b c := by
  induction ss with
  | nil => intro b c _; rfl
  | cons p ps ih =>
    intro b c hc
    simp only [List.map_cons, List.mem_cons, not_or] at hc
    show Buf.replay (b.store p.1 p.2) ps c = b c
    rw [ih _ _ hc.2, Buf.store_ne _ _ _ _ hc.1]

theorem Buf.replay_nodup_mem (ss : List (List Nat × Option Scalar)) :
    ∀ (b : Buf) (c : List Nat) (v : Option Scalar),
      (ss.map Prod.fst).Nodup → (c, v) ∈ ss → b.replay ss c = v := by
  induction ss with
  | nil => intro _ _ _ _ h; cases h
  | cons p ps ih =>
    intro b c v hnd hm
    simp only [List.map_cons, List.nodup_cons] at hnd
    rcases List.mem_cons.mp hm with h | h
    · cases h
      show Buf.replay (b.store c v) ps c = v
      have hc : c ∉ ps.map Prod.fst := hnd.1
      rw [Buf.replay_not_mem _ _ _ hc, Buf.store_eq]
    · exact ih _ _ _ hnd.2 h

/-- Membership in the row-major coordinate enumeration is exactly
pointwise boundedness by the shape. -/
theorem mem_coords {c : List Nat} {s : List Nat} :
    c ∈ coords s ↔ List.Forall₂ (· < ·) c s := by
  induction s generalizing c with
  | nil =>
    simp only [coords, List.mem_singleton]
    constructor
    · rintro rfl; exact List.Forall₂.nil
    · intro h; cases h; rfl
  | cons d ds ih =>
    simp only [coords, List.mem_flatMap, List.mem_map, List.mem_range]
    constructor
    · rintro ⟨i, hi, c', hc', rfl⟩
      exact List.Forall₂.cons hi (ih.mp hc')
    · intro h
      cases h with
      | cons hi hc' => exact ⟨_, hi, _, ih.mpr hc', rfl⟩

theorem coords_nodup (s : List Nat) : (coords s).Nodup := by
  induction s with
  | nil => simp [coords]
  | cons d ds ih =>
    rw [coords]
    refine List.nodup_flatMap.mpr ⟨fun i _ => ih.map fun a b h => by injection h, ?_⟩
    refine (List.pairwise_lt_range d).imp ?_
    intro i j hij
    simp only [Function.onFun]
    intro x hx hy
    simp only [List.mem_map] at hx hy
    obtain ⟨a, _, rfl⟩ := hx
    obtain ⟨b, _, h⟩ := hy
    injection h with h1 _
    exact absurd h1.symm (Nat.ne_of_lt hij)

/-- The value the shared loop-nest lowering leaves at each in-bounds
coordinate is the callback's value there. -/
theorem lowerOpToLoops_at (shape : List Nat) (f : List Nat → Scalar)
    (c : List Nat) (h : List.Forall₂ (· < ·) c shape) :
    lowerOpToLoops shape f c = some (f c) := by
  apply Buf.replay_nodup_mem
  · rw [List.map_map]
    have : (Prod.fst ∘ fun c => (c, some (f c))) = id := rfl
    rw [this, List.map_id]
    exact coords_nodup shape
  · exact List.mem_map.mpr ⟨c, mem_coords.mpr h, rfl⟩

/-- Every coordinate the loop nest visits has one index per result
dimension: the nest's rank equals the result's rank. -/
theorem coords_rank (s : List Nat) (c : List Nat) (hc : c ∈ coords s) :
    c.length = s.length :=
  (mem_coords.mp hc).length_eq

/-- C5: for ElementwiseAdd and ElementwiseMul over operands of shape
[m, n], the lowered loop nest stores, at every in-bounds coordinate
[i, j], the scalar sum (respectively product) of the two operands loaded
at that same coordinate. -/
theorem binaryOpLowering_spec (m n : Nat) (lhs rhs : List Nat → Scalar)
    (i j : Nat) (hi : i < m) (hj : j < n) :
    addOpLowering [m, n] lhs rhs [i, j] = some (lhs [i, j] + rhs [i, j]) ∧
    mulOpLowering [m, n] lhs rhs [i, j] = some (lhs [i, j] * rhs [i, j]) := by
  have hf : List.Forall₂ (· < ·) [i, j] [m, n] := .cons hi (.cons hj .nil)
  exact ⟨lowerOpToLoops_at _ _ _ hf, lowerOpToLoops_at _ _ _ hf⟩

/-- Elements of the 2x2 literal [[1,2],[3,4]] used as a concrete operand. -/
def lhsW : List Nat → Scalar := fun c =>
  if c = [0, 0] then 1 else if c = [0, 1] then 2 else if c = [1, 0] then 3 else 4

/-- Elements of the 2x2 literal [[5,6],[7,8]] used as a concrete operand. -/
def rhsW : List Nat → Scalar := fun c =>
  if c = [0, 0] then 5 else if c = [0, 1] then 6 else if c = [1, 0] then 7 else 8

/-- Witness for C5 at the spec's concrete scenario: Add (and Mul) of the
2x2 literals evaluated at coordinate [1, 0]. -/
theorem binaryOpLowering_spec_witness :
    addOpLowering [2, 2] lhsW rhsW [1, 0] = some 10 ∧
    mulOpLowering [2, 2] lhsW rhsW [1, 0] = some 21 := by
  obtain ⟨h1, h2⟩ := binaryOpLowering_spec 2 2 lhsW rhsW 1 0 (by decide) (by decide)
  exact ⟨h1.trans (by decide), h2.trans (by decide)⟩

/-- C4: Transpose of an input of shape [m, n] to a result of shape
[n, m]: the loop nest has rank equal to the result rank, and at every
in-bounds coordinate [i, j] of the result the stored value is the input
loaded at the reversed tuple [j, i]. -/
theorem transposeOpLowering_spec (m n : Nat) (input : List Nat → Scalar)
    (i j : Nat) (hi : i < n) (hj : j < m) :
    (∀ c ∈ coords [n, m], c.length = 2) ∧
    transposeOpLowering [n, m] input [i, j] = some (input [j, i]) := by
  constructor
  · intro c hc; exact coords_rank _ _ hc
  · have hf : List.Forall₂ (· < ·) [i, j] [n, m] := .cons hi (.cons hj .nil)
    exact lowerOpToLoops_at [n, m] (fun ivs => input ivs.reverse) [i, j] hf

/-- Witness for C4 at the spec's concrete scenario: the transpose of
[[1,2],[3,4]] holds 2 at coordinate [1, 0]. -/
theorem transposeOpLowering_spec_witness :
    (∀ c ∈ coords [2, 2], c.length = 2) ∧
    transposeOpLowering [2, 2] lhsW [1, 0] = some 2 := by
  obtain ⟨h1, h2⟩ := transposeOpLowering_spec 2 2 lhsW 1 0 (by decide) (by decide)
  exact ⟨h1, h2.trans (by decide)⟩

/-- Constant indices materialized up front by `ConstantOpLowering`: one
index constant for each value below the largest dimension, or the single
index 0 when the shape has rank 0. -/
def constantIndices (shape : List Nat) : List Nat :=
  if shape.isEmpty then [0] else List.range (shape.foldr Nat.max 0)

/-- One dimension of the element-storing walk of `ConstantOpLowering`:
the loop `for (i = 0; i != e; ++i)` pushes the index i and recurses into
the remaining dimensions, consuming literal elements left to right.
Returns the stores emitted (in order) and the unconsumed elements. -/
def storeDim (rec : List Scalar → List (List Nat × Option Scalar) × List Scalar) :
    Nat → List Scalar → List (List Nat × Option Scalar) × List Scalar
  | 0, vals => ([], vals)
  | d + 1, vals =>
    let r := storeDim rec d vals
    let s := rec r.2
    (r.1 ++ s.1.map fun p => (d :: p.1, p.2), s.2)

/-- The recursive walk `storeElements` of `ConstantOpLowering`: at the
base case (all dimensions consumed) store the next unconsumed element at
the current index tuple; an element drawn from an exhausted sequence is
recorded as `none`. -/
def storeElements : List Nat → List Scalar → List (List Nat × Option Scalar) × List Scalar
  | [], vals => ([([], vals.head?)], vals.drop 1)
  | d :: ds, vals => storeDim (fun v => storeElements ds v) d vals

/-- Lowering of `pony.constant` (`ConstantOpLowering`): allocate a
buffer for the result shape and replay the stores of the element walk.
The pattern has no failure path and unconditionally returns success; the
Bool records the returned `LogicalResult`. -/
def constantOpLowering (shape : List Nat) (vals : List Scalar) : Bool × Buf :=
  (true, Buf.replay Buf.empty (storeElements shape vals).1)

/-- The coordinates of the stores one dimension of the walk emits, in
order: each index of the dimension prefixed to the coordinates the inner
walk emits. -/
theorem storeDim_fst (rec : List Scalar → List (List Nat × Option Scalar) × List Scalar)
    (C : List (List Nat)) (hrec : ∀ v, (rec v).1.map Prod.fst = C) :
    ∀ (d : Nat) (vals : List Scalar),
      (storeDim rec d vals).1.map Prod.fst
        = (List.range d).flatMap fun i => C.map (i :: ·) := by
  intro d
  induction d with
  | zero => intro vals; simp [storeDim]
  | succ d ih =>
    intro vals
    simp only [storeDim, List.map_append, List.map_map]
    rw [ih vals]
    have hcomp : (Prod.fst ∘ fun p : List Nat × Option Scalar => (d :: p.1, p.2))
        = (fun c => d :: c) ∘ Prod.fst := rfl
    rw [hcomp, ← List.map_map, hrec, List.range_succ, List.flatMap_append]
    simp

/-- The values of the stores one dimension of the walk emits and the
elements it leaves unconsumed, when enough elements remain: it consumes
the next d * P elements in order. -/
theorem storeDim_snd (rec : List Scalar → List (List Nat × Option Scalar) × List Scalar)
    (P : Nat)
    (hrec : ∀ v : List Scalar, P ≤ v.length →
      (rec v).1.map Prod.snd = (v.take P).map some ∧ (rec v).2 = v.drop P) :
    ∀ (d : Nat) (vals : List Scalar), d * P ≤ vals.length →
      (storeDim rec d vals).1.map Prod.snd = (vals.take (d * P)).map some ∧
      (storeDim rec d vals).2 = vals.drop (d * P) := by
  intro d
  induction d with
  | zero => intro vals _; simp [storeDim]
  | succ d ih =>
    intro vals h
    have hdP : d * P ≤ vals.length :=
      le_trans (Nat.mul_le_mul_right P (Nat.le_succ d)) h
    obtain ⟨h1, h2⟩ := ih vals hdP
    have hlen : P ≤ ((storeDim rec d vals).2).length := by
      rw [h2, List.length_drop]
      have : (d + 1) * P = d * P + P := Nat.succ_mul d P
      omega
    obtain ⟨h3, h4⟩ := hrec _ hlen
    simp only [storeDim, List.map_append, List.map_map]
    constructor
    · have hcomp : (Prod.snd ∘ fun p : List Nat × Option Scalar => (d :: p.1, p.2))
          = Prod.snd := rfl
      rw [hcomp, h1, h3, h2, Nat.succ_mul, List.take_add, List.map_append]
    · rw [h4, h2, List.drop_drop, Nat.succ_mul, Nat.add_comm (d * P) P]

/-- The coordinates of the stores the element walk emits are exactly the
row-major coordinate enumeration of the shape, whatever the element
sequence (no count check is involved). -/
theorem storeElements_fst (shape : List Nat) :
    ∀ vals : List Scalar, (storeElements shape vals).1.map Prod.fst = coords shape := by
  induction shape with
  | nil => intro vals; simp [storeElements, coords]
  | cons d ds ih =>
    intro vals
    rw [coords]
    simpa [storeElements] using storeDim_fst (fun v => storeElements ds v) (coords ds) ih d vals

/-- When the element sequence holds at least as many elements as the
shape's dimension product, the walk stores exactly the first
prod-of-shape elements, in order, and leaves the rest unconsumed. -/
theorem storeElements_spec (shape : List Nat) :
    ∀ vals : List Scalar, shape.prod ≤ vals.length →
      (storeElements shape vals).1.map Prod.snd = (vals.take shape.prod).map some ∧
      (storeElements shape vals).2 = vals.drop shape.prod := by
  induction shape with
  | nil =>
    intro vals h
    simp only [List.prod_nil] at h ⊢
    cases vals with
    | nil => simp at h
    | cons v vs => simp [storeElements, List.take_cons]
  | cons d ds ih =>
    intro vals h
    rw [List.prod_cons] at h ⊢
    simpa [storeElements] using
      storeDim_snd (fun v => storeElements ds v) ds.prod ih d vals h

/-- Reading a replayed buffer back at the stored coordinates, in store
order, recovers the stored values, provided the coordinates are
pairwise distinct. -/
theorem Buf.replay_reads (ss : List (List Nat × Option Scalar)) :
    ∀ b : Buf, (ss.map Prod.fst).Nodup →
      (ss.map Prod.fst).map (b.replay ss) = ss.map Prod.snd := by
  induction ss with
  | nil => intro b _; rfl
  | cons p ps ih =>
    intro b hnd
    simp only [List.map_cons, List.nodup_cons] at hnd
    show Buf.replay (b.store p.1 p.2) ps p.1 ::
        (ps.map Prod.fst).map (Buf.replay (b.store p.1 p.2) ps)
      = p.2 :: ps.map Prod.snd
    rw [Buf.replay_not_mem _ _ _ hnd.1, Buf.store_eq, ih _ hnd.2]

/-- C6: for a Literal whose element count matches its shape, reading the
produced buffer at the coordinates in row-major order reproduces the
original flattened element sequence exactly. -/
theorem constantOpLowering_row_major (shape : List Nat) (vals : List Scalar)
    (h : vals.length = shape.prod) :
    (coords shape).map (constantOpLowering shape vals).2 = vals.map some := by
  have hfst := storeElements_fst shape vals
  obtain ⟨hsnd, _⟩ := storeElements_spec shape vals (le_of_eq h.symm)
  have hnd : ((storeElements shape vals).1.map Prod.fst).Nodup := by
    rw [hfst]; exact coords_nodup shape
  have hreads := Buf.replay_reads (storeElements shape vals).1 Buf.empty hnd
  rw [hfst] at hreads
  show (coords shape).map (Buf.replay Buf.empty (storeElements shape vals).1) = _
  rw [hreads, hsnd, ← h, List.take_length]

/-- Witness for C6: the 2x2 literal [1,2,3,4] read back in row-major
order. -/
theorem constantOpLowering_row_major_witness :
    (coords [2, 2]).map (constantOpLowering [2, 2] [1, 2, 3, 4]).2
      = [some 1, some 2, some 3, some 4] :=
  (constantOpLowering_row_major [2, 2] [1, 2, 3, 4] (by decide)).trans (by decide)

/-- C1 counterexample: a Literal whose flattened element count (3) does
not equal the product of its declared shape's dimensions (2 * 2 = 4) is
still lowered with success: no MalformedConstantPayload failure is
reported; the pattern has no failure path at all. -/
theorem constant_mismatch_no_failure :
    ([1, 2, 3] : List Scalar).length ≠ ([2, 2] : List Nat).prod ∧
    (constantOpLowering [2, 2] [1, 2, 3]).1 = true :=
  ⟨by decide, rfl⟩

/-- C1 (amended): lowering a Literal performs no element-count
validation and always reports success, storing one element (possibly
drawn from an exhausted sequence) at every coordinate of the declared
shape. -/
theorem constantOpLowering_no_count_check (shape : List Nat) (vals : List Scalar) :
    (constantOpLowering shape vals).1 = true ∧
    (storeElements shape vals).1.map Prod.fst = coords shape :=
  ⟨rfl, storeElements_fst shape vals⟩

/-- C10: a rank-0 Literal is handled: the empty-shape branch materializes
the single constant index 0, the walk immediately hits its base case and
emits exactly one store of the first element at the empty coordinate
tuple, and lowering succeeds with the element readable back. -/
theorem constantOpLowering_rank0 (v : Scalar) (rest : List Scalar) :
    constantIndices [] = [0] ∧
    (storeElements [] (v :: rest)).1 = [([], some v)] ∧
    (constantOpLowering [] (v :: rest)).1 = true ∧
    (constantOpLowering [] (v :: rest)).2 [] = some v := by
  refine ⟨rfl, by simp [storeElements], rfl, ?_⟩
  simp [constantOpLowering, storeElements, Buf.replay, Buf.store, Buf.empty]

/-- A two-dimensional buffer viewed as its contents. The GEMM lowering
both reads and writes its destination, so it is modelled as a total map
from a pair of indices to the scalar currently held there. -/
def Buf2 : Type := Nat → Nat → Scalar

/-- An indexed store into a two-dimensional buffer. -/
def Buf2.store (b : Buf2) (i j : Nat) (v : Scalar) : Buf2 :=
  fun a c => if a = i ∧ c = j then v else b a c

/-- Innermost (k) loop of `GemmOpLowering`: for each k below K, load
LHS[i,k] and RHS[j,k], multiply, load the current value of the
destination at [i,j], add the product, and store back at [i,j]. -/
def gemmInner (lhs rhs : Nat → Nat → Scalar) (i j K : Nat) (buf : Buf2) : Buf2 :=
  (List.range K).foldl (fun b k => b.store i j (b i j + lhs i k * rhs j k)) buf

/-- Middle (j) loop of `GemmOpLowering`. -/
def gemmMid (lhs rhs : Nat → Nat → Scalar) (i N K : Nat) (buf : Buf2) : Buf2 :=
  (List.range N).foldl (fun b j => gemmInner lhs rhs i j K b) buf

/-- Lowering of `pony.gemm` (`GemmOpLowering`): a 3-level loop nest over
i below M (first result dimension), j below N (second result dimension)
and k below K (the shared second dimension of both operands, RHS being
pre-transposed). The rule never initializes the destination; its prior
contents are the `buf` parameter. -/
def gemmOpLowering (lhs rhs : Nat → Nat → Scalar) (M N K : Nat) (buf : Buf2) : Buf2 :=
  (List.range M).foldl (fun b i => gemmMid lhs rhs i N K b) buf

theorem gemmInner_succ (lhs rhs : Nat → Nat → Scalar) (i j K : Nat) (buf : Buf2) :
    gemmInner lhs rhs i j (K + 1) buf
      = (gemmInner lhs rhs i j K buf).store i j
          (gemmInner lhs rhs i j K buf i j + lhs i K * rhs j K) := by
  unfold gemmInner
  rw [List.range_succ, List.foldl_append, List.foldl_cons, List.foldl_nil]

theorem gemmMid_succ (lhs rhs : Nat → Nat → Scalar) (i N K : Nat) (buf : Buf2) :
    gemmMid lhs rhs i (N + 1) K buf
      = gemmInner lhs rhs i N K (gemmMid lhs rhs i N K buf) := by
  unfold gemmMid
  rw [List.range_succ, List.foldl_append, List.foldl_cons, List.foldl_nil]

theorem gemmOpLowering_succ (lhs rhs : Nat → Nat → Scalar) (M N K : Nat) (buf : Buf2) :
    gemmOpLowering lhs rhs (M + 1) N K buf
      = gemmMid lhs rhs M N K (gemmOpLowering lhs rhs M N K buf) := by
  unfold gemmOpLowering
  rw [List.range_succ, List.foldl_append, List.foldl_cons, List.foldl_nil]

/-- The innermost loop writes only the cell [i,j]. -/
theorem gemmInner_frame (lhs rhs : Nat → Nat → Scalar) (i j K : Nat) (buf : Buf2)
    (a c : Nat) (h : ¬(a = i ∧ c = j)) :
    gemmInner lhs rhs i j K buf a c = buf a c := by
  induction K with
  | zero => rfl
  | succ K ih => rw [gemmInner_succ]; simp only [Buf2.store, if_neg h]; exact ih

/-- The innermost loop accumulates onto the cell [i,j] the sum of the
products over the contraction index. -/
theorem gemmInner_at (lhs rhs : Nat → Nat → Scalar) (i j : Nat) (K : Nat) (buf : Buf2) :
    gemmInner lhs rhs i j K buf i j
      = buf i j + ∑ k ∈ Finset.range K, lhs i k * rhs j k := by
  induction K with
  | zero => simp [gemmInner]
  | succ K ih =>
    rw [gemmInner_succ]
    simp [Buf2.store, ih, Finset.sum_range_succ, add_assoc]

/-- The middle loop leaves rows other than i untouched. -/
theorem gemmMid_frame (lhs rhs : Nat → Nat → Scalar) (i N K : Nat) (buf : Buf2)
    (a c : Nat) (h : a ≠ i) :
    gemmMid lhs rhs i N K buf a c = buf a c := by
  induction N with
  | zero => rfl
  | succ N ih =>
    rw [gemmMid_succ, gemmInner_frame _ _ _ _ _ _ _ _ (fun hc => h hc.1)]
    exact ih

/-- The middle loop leaves columns at or beyond its bound untouched. -/
theorem gemmMid_frame_col (lhs rhs : Nat → Nat → Scalar) (i K : Nat) :
    ∀ (N : Nat) (buf : Buf2) (c : Nat), N ≤ c →
      gemmMid lhs rhs i N K buf i c = buf i c := by
  intro N
  induction N with
  | zero => intro buf c _; rfl
  | succ N ih =>
    intro buf c hc
    rw [gemmMid_succ, gemmInner_frame _ _ _ _ _ _ _ _ (fun h => by omega)]
    exact ih buf c (by omega)

/-- The middle loop accumulates each in-bounds column of row i. -/
theorem gemmMid_at (lhs rhs : Nat → Nat → Scalar) (i K : Nat) :
    ∀ (N : Nat) (buf : Buf2) (j : Nat), j < N →
      gemmMid lhs rhs i N K buf i j
        = buf i j + ∑ k ∈ Finset.range K, lhs i k * rhs j k := by
  intro N
  induction N with
  | zero => intro buf j h; omega
  | succ N ih =>
    intro buf j hj
    rw [gemmMid_succ]
    by_cases hjN : j = N
    · subst hjN
      rw [gemmInner_at, gemmMid_frame_col _ _ _ _ _ _ _ (le_refl j)]
    · rw [gemmInner_frame _ _ _ _ _ _ _ _ (fun h => hjN h.2)]
      exact ih buf j (by omega)

/-- The outer loop leaves rows at or beyond its bound untouched. -/
theorem gemmOpLowering_frame (lhs rhs : Nat → Nat → Scalar) (N K : Nat) :
    ∀ (M : Nat) (buf : Buf2) (a c : Nat), M ≤ a →
      gemmOpLowering lhs rhs M N K buf a c = buf a c := by
  intro M
  induction M with
  | zero => intro buf a c _; rfl
  | succ M ih =>
    intro buf a c ha
    rw [gemmOpLowering_succ, gemmMid_frame _ _ _ _ _ _ _ _ (by omega)]
    exact ih buf a c (by omega)

/-- The full nest accumulates every in-bounds cell. -/
theorem gemmOpLowering_at (lhs rhs : Nat → Nat → Scalar) (N K : Nat) :
    ∀ (M : Nat) (buf : Buf2) (i j : Nat), i < M → j < N →
      gemmOpLowering lhs rhs M N K buf i j
        = buf i j + ∑ k ∈ Finset.range K, lhs i k * rhs j k := by
  intro M
  induction M with
  | zero => intro buf i j hi _; omega
  | succ M ih =>
    intro buf i j hi hj
    rw [gemmOpLowering_succ]
    by_cases hiM : i = M
    · subst hiM
      rw [gemmMid_at _ _ _ _ _ _ _ hj,
        gemmOpLowering_frame _ _ _ _ _ _ _ _ (le_refl i)]
    · rw [gemmMid_frame _ _ _ _ _ _ _ _ hiM]
      exact ih buf i j (by omega) hj

/-- C2: for MatMulAccumulate with LHS of shape [M,K] and pre-transposed
RHS of shape [N,K], if the destination holds zero at every coordinate
beforehand then the lowered nest leaves, at every in-bounds [i,j], the
sum over k below K of LHS[i,k] * RHS[j,k]; and for an arbitrary prior
destination the nest only accumulates onto the prior value, never
zero-initializing it. -/
theorem gemmOpLowering_spec (lhs rhs : Nat → Nat → Scalar) (M N K : Nat)
    (buf : Buf2) (i j : Nat) (hi : i < M) (hj : j < N)
    (hzero : ∀ a c, buf a c = 0) :
    gemmOpLowering lhs rhs M N K buf i j
      = ∑ k ∈ Finset.range K, lhs i k * rhs j k ∧
    (∀ init : Buf2,
      gemmOpLowering lhs rhs M N K init i j
        = init i j + ∑ k ∈ Finset.range K, lhs i k * rhs j k) := by
  refine ⟨?_, fun init => gemmOpLowering_at lhs rhs N K M init i j hi hj⟩
  rw [gemmOpLowering_at lhs rhs N K M buf i j hi hj, hzero, zero_add]

/-- Concrete 2x2 LHS operand for the GEMM witness. -/
def lhsG : Nat → Nat → Scalar := fun a b => 2 * (a : Int) + b + 1

/-- Concrete 2x2 pre-transposed RHS operand for the GEMM witness. -/
def rhsG : Nat → Nat → Scalar := fun a b => 2 * (a : Int) + b + 5

/-- Witness for C2 at M = N = K = 2 with a zeroed destination:
row 0 of LHS is [1,2], row 1 of RHS is [7,8], and the cell [0,1]
receives 1 * 7 + 2 * 8 = 23. -/
theorem gemmOpLowering_spec_witness :
    gemmOpLowering lhsG rhsG 2 2 2 (fun _ _ => 0) 0 1 = 23 :=
  ((gemmOpLowering_spec lhsG rhsG 2 2 2 (fun _ _ => 0) 0 1
    (by decide) (by decide) (fun _ _ => rfl)).1).trans (by decide)

/-- Types of SSA values as the conversion sees them: tensor values form
the source vocabulary; converted tensor operands are memref buffers. -/
inductive Ty
  | tensor
  | memref
  | scalarTy
  deriving DecidableEq

/-- Signature data of a `pony.func`: its symbol name and the sizes of
its declared parameter and result lists. -/
structure FuncSig where
  name : String
  numArgs : Nat
  numResults : Nat
  deriving DecidableEq

/-- The operations the conversion distinguishes: the source (pony)
vocabulary, each with the data its rule inspects, and `targetOp`
standing for any operation of the legal target dialects (affine,
builtin, arith, func, memref). -/
inductive Node
  | ponyAdd
  | ponyMul
  | ponyGemm
  | ponyTranspose
  | ponyConst (shape : List Nat) (vals : List Scalar)
  | ponyFunc (sig : FuncSig)
  | ponyReturn (operandTys : List Ty)
  | ponyPrint (operandTys : List Ty)
  | targetOp
  deriving DecidableEq

/-- Legality as `runOnOperation` configures it: the target dialects are
legal, the pony dialect is illegal, except `pony.print`, which is
dynamically legal exactly when none of its operand types is a tensor. -/
def isLegalNode : Node → Bool
  | .targetOp => true
  | .ponyPrint tys => tys.all fun t => !(t == Ty.tensor)
  | _ => false

/-- Rewrite of `pony.func` (`FuncOpLowering`): only a function named
exactly "main" with zero declared parameters and zero declared results
is accepted and re-created as a plain (builtin) function with the same
name and function type; any other signature is declined. -/
def funcOpLowering (sig : FuncSig) : Option FuncSig :=
  if sig.name ≠ "main" then none
  else if sig.numArgs ≠ 0 ∨ sig.numResults ≠ 0 then none
  else some sig

/-- Rewrite of `pony.return` (`ReturnOpLowering`): declined when the
return has any operand; otherwise replaced by a plain `func.return`
(a target-dialect operation). -/
def returnOpLowering (operandTys : List Ty) : Option Node :=
  if ¬operandTys.isEmpty then none else some Node.targetOp

/-- Type conversion applied to remapped operands: a converted tensor
operand is replaced by its memref buffer; other operands are kept. -/
def convertTy : Ty → Ty
  | .tensor => .memref
  | t => t

/-- Rewrite of `pony.print` (`PrintOpLowering`): the node is not
structurally rewritten; only its operand references are updated, in
place, to the remapped (converted) operands. -/
def printOpLowering (operandTys : List Ty) : Node :=
  Node.ponyPrint (operandTys.map convertTy)

/-- One application of the pattern set to a node: the rewrite the driver
attempts, returning the replacement nodes, or `none` when every pattern
declines. The tensor-compute rules always succeed, producing
target-dialect loop nests (modelled in detail above); `pony.func` and
`pony.return` decline nonconforming nodes. -/
def legalizeNode : Node → Option (List Node)
  | .ponyAdd => some [.targetOp]
  | .ponyMul => some [.targetOp]
  | .ponyGemm => some [.targetOp]
  | .ponyTranspose => some [.targetOp]
  | .ponyConst shape vals =>
      if (constantOpLowering shape vals).1 then some [.targetOp] else none
  | .ponyFunc sig => (funcOpLowering sig).map fun _ => [.targetOp]
  | .ponyReturn tys => (returnOpLowering tys).map fun n => [n]
  | .ponyPrint tys => some [printOpLowering tys]
  | .targetOp => none

/-- Modelled from the spec: converting one node, one step of the MLIR
`applyPartialConversion` worklist (a library routine whose body is not
among this repository's sources). A node already legal is kept; an
illegal node must be rewritten, and its conversion fails when every
pattern declines. -/
def convertNode (n : Node) : Option (List Node) :=
  if isLegalNode n then some [n] else legalizeNode n

/-- Modelled from the spec: the fixed-point partial conversion driver
(`applyPartialConversion`). Every rewrite the patterns of this pass
produce is immediately legal, so the fixed point is reached after
converting each node once; the driver either converts every node or
fails as a whole. -/
def convertAll : List Node → Option (List Node)
  | [] => some []
  | n :: g =>
    match convertNode n, convertAll g with
    | some l, some r => some (l ++ r)
    | _, _ => none

/-- Modelled from the spec: `PonyToAffineLoweringPass::runOnOperation`
applies the partial conversion and, on failure, signals pass failure
(`none`) instead of returning any graph. -/
def runOnOperation (g : List Node) : Option (List Node) :=
  convertAll g

/-- The updated print node carries no tensor operand, so it is legal. -/
theorem printOpLowering_legal (tys : List Ty) :
    isLegalNode (printOpLowering tys) = true := by
  simp only [printOpLowering, isLegalNode, List.all_eq_true, List.mem_map]
  rintro b ⟨t, _, rfl⟩
  cases t <;> simp [convertTy]

/-- Every node a successful single-node conversion returns is legal. -/
theorem convertNode_legal (n : Node) (l : List Node)
    (h : convertNode n = some l) : ∀ m ∈ l, isLegalNode m = true := by
  unfold convertNode at h
  by_cases hleg : isLegalNode n
  · rw [if_pos hleg] at h
    cases h
    intro m hm
    rw [List.mem_singleton.mp hm]
    exact hleg
  · rw [if_neg hleg] at h
    cases n with
    | ponyConst shape vals =>
      simp only [legalizeNode, constantOpLowering, if_pos] at h
      cases h
      intro m hm
      rw [List.mem_singleton.mp hm]
      rfl
    | ponyFunc sig =>
      simp only [legalizeNode, Option.map_eq_some'] at h
      obtain ⟨_, _, rfl⟩ := h
      intro m hm
      rw [List.mem_singleton.mp hm]
      rfl
    | ponyReturn tys =>
      simp only [legalizeNode, returnOpLowering] at h
      by_cases he : tys.isEmpty <;> simp [he] at h
      cases h
      intro m hm
      rw [List.mem_singleton.mp hm]
      rfl
    | ponyPrint tys =>
      simp only [legalizeNode] at h
      cases h
      intro m hm
      rw [List.mem_singleton.mp hm]
      exact printOpLowering_legal tys
    | targetOp => exact absurd rfl hleg
    | ponyAdd => cases h; intro m hm; rw [List.mem_singleton.mp hm]; rfl
    | ponyMul => cases h; intro m hm; rw [List.mem_singleton.mp hm]; rfl
    | ponyGemm => cases h; intro m hm; rw [List.mem_singleton.mp hm]; rfl
    | ponyTranspose => cases h; intro m hm; rw [List.mem_singleton.mp hm]; rfl

/-- A successfully converted graph holds only legal nodes. -/
theorem convertAll_legal (g : List Node) :
    ∀ res, convertAll g = some res → ∀ m ∈ res, isLegalNode m = true := by
  induction g with
  | nil =>
    intro res hres
    cases hres
    intro m hm
    cases hm
  | cons n g ih =>
    intro res hres
    unfold convertAll at hres
    cases hcn : convertNode n with
    | none => rw [hcn] at hres; cases hres
    | some l =>
      rw [hcn] at hres
      cases hca : convertAll g with
      | none => rw [hca] at hres; cases hres
      | some r =>
        rw [hca] at hres
        cases hres
        intro m hm
        rcases List.mem_append.mp hm with hml | hmr
        · exact convertNode_legal n l hcn m hml
        · exact ih r hca m hmr

/-- A graph holding a node no pattern can convert fails as a whole. -/
theorem convertAll_none (g : List Node) :
    ∀ n ∈ g, convertNode n = none → convertAll g = none := by
  intro n hn hcn
  induction g with
  | nil => cases hn
  | cons p g ih =>
    unfold convertAll
    rcases List.mem_cons.mp hn with rfl | hmem
    · rw [hcn]
    · cases hcp : convertNode p with
      | none => rfl
      | some l => rw [ih hmem]

/-- C3: the conversion is atomic at the fixed point: when the pass
returns a graph, every node of it is legal (never a mixed or partially
converted graph), and when any node of the input has no successful
rewrite and is not legal, the whole pass fails and returns no graph. -/
theorem runOnOperation_atomic (g : List Node) :
    (∀ res, runOnOperation g = some res → ∀ m ∈ res, isLegalNode m = true) ∧
    (∀ n ∈ g, convertNode n = none → runOnOperation g = none) :=
  ⟨convertAll_legal g, convertAll_none g⟩

/-- Witness for C3: a graph holding a Return with one operand fails as
a whole, and a successfully converted graph is fully legal. -/
theorem runOnOperation_atomic_witness :
    runOnOperation [Node.ponyReturn [Ty.tensor]] = none ∧
    (∀ m ∈ [Node.targetOp], isLegalNode m = true) := by
  constructor
  · exact (runOnOperation_atomic [Node.ponyReturn [Ty.tensor]]).2
      (Node.ponyReturn [Ty.tensor]) (by decide) (by decide)
  · exact (runOnOperation_atomic [Node.ponyAdd]).1 [Node.targetOp] (by decide)

/-- C7: an EntryPoint whose name is not exactly "main", or whose
parameter or result list is non-empty, and a Return with one or more
operands, are each declined by their rules; a graph still holding such a
node fails to convert as a whole; while the conforming EntryPoint is
rewritten to a plain function of the same signature and the operand-less
Return to a plain control-return. -/
theorem funcReturnLowering_spec (sig : FuncSig) (tys : List Ty) (g : List Node)
    (hbad : sig.name ≠ "main" ∨ sig.numArgs ≠ 0 ∨ sig.numResults ≠ 0)
    (htys : tys ≠ []) :
    funcOpLowering sig = none ∧
    returnOpLowering tys = none ∧
    (Node.ponyFunc sig ∈ g → runOnOperation g = none) ∧
    (Node.ponyReturn tys ∈ g → runOnOperation g = none) ∧
    funcOpLowering ⟨"main", 0, 0⟩ = some ⟨"main", 0, 0⟩ ∧
    returnOpLowering [] = some Node.targetOp := by
  have hf : funcOpLowering sig = none := by
    unfold funcOpLowering
    by_cases hn : sig.name = "main"
    · rw [if_neg fun h => h hn]
      have hbad2 : sig.numArgs ≠ 0 ∨ sig.numResults ≠ 0 := by
        rcases hbad with h | h | h
        · exact absurd hn h
        · exact Or.inl h
        · exact Or.inr h
      rw [if_pos hbad2]
    · rw [if_pos hn]
  have hr : returnOpLowering tys = none := by
    cases tys with
    | nil => exact absurd rfl htys
    | cons t ts => rfl
  have hcf : convertNode (Node.ponyFunc sig) = none := by
    simp [convertNode, isLegalNode, legalizeNode, hf]
  have hcr : convertNode (Node.ponyReturn tys) = none := by
    simp [convertNode, isLegalNode, legalizeNode, hr]
  exact ⟨hf, hr, fun hmem => convertAll_none g _ hmem hcf,
    fun hmem => convertAll_none g _ hmem hcr, by decide, rfl⟩

/-- Witness for C7: a function named "entry" with one parameter and two
results, and a return with one operand, inside a two-node graph. -/
theorem funcReturnLowering_spec_witness :
    funcOpLowering ⟨"entry", 1, 2⟩ = none ∧
    returnOpLowering [Ty.memref] = none ∧
    (Node.ponyFunc ⟨"entry", 1, 2⟩ ∈
        [Node.ponyFunc ⟨"entry", 1, 2⟩, Node.ponyReturn [Ty.memref]] →
      runOnOperation [Node.ponyFunc ⟨"entry", 1, 2⟩, Node.ponyReturn [Ty.memref]] = none) ∧
    (Node.ponyReturn [Ty.memref] ∈
        [Node.ponyFunc ⟨"entry", 1, 2⟩, Node.ponyReturn [Ty.memref]] →
      runOnOperation [Node.ponyFunc ⟨"entry", 1, 2⟩, Node.ponyReturn [Ty.memref]] = none) ∧
    funcOpLowering ⟨"main", 0, 0⟩ = some ⟨"main", 0, 0⟩ ∧
    returnOpLowering [] = some Node.targetOp :=
  funcReturnLowering_spec ⟨"entry", 1, 2⟩ [Ty.memref]
    [Node.ponyFunc ⟨"entry", 1, 2⟩, Node.ponyReturn [Ty.memref]]
    (by decide) (by decide)

/-- C8: `pony.print` is dynamically legal exactly when none of its
operand types is a tensor; its rewrite does not change the node's kind,
only replacing the operand references with the converted buffers
(operands that were not tensors are kept as they are), and the updated
node is legal. -/
theorem printOpLowering_spec (tys : List Ty) :
    (isLegalNode (Node.ponyPrint tys) = true ↔ ∀ t ∈ tys, t ≠ Ty.tensor) ∧
    legalizeNode (Node.ponyPrint tys) = some [printOpLowering tys] ∧
    printOpLowering tys = Node.ponyPrint (tys.map convertTy) ∧
    ((∀ t ∈ tys, t ≠ Ty.tensor) → tys.map convertTy = tys) ∧
    isLegalNode (printOpLowering tys) = true := by
  refine ⟨?_, rfl, rfl, ?_, printOpLowering_legal tys⟩
  · simp [isLegalNode, List.all_eq_true]
  · intro h
    have hpt : ∀ t ∈ tys, convertTy t = t := by
      intro t ht
      cases t with
      | tensor => exact absurd rfl (h _ ht)
      | memref => rfl
      | scalarTy => rfl
    calc tys.map convertTy = tys.map id := List.map_congr_left hpt
      _ = tys := List.map_id tys

/-- Witness for C8 at a print with one tensor and one scalar operand. -/
theorem printOpLowering_spec_witness :
    (isLegalNode (Node.ponyPrint [Ty.tensor, Ty.scalarTy]) = true ↔
      ∀ t ∈ [Ty.tensor, Ty.scalarTy], t ≠ Ty.tensor) ∧
    legalizeNode (Node.ponyPrint [Ty.tensor, Ty.scalarTy])
      = some [printOpLowering [Ty.tensor, Ty.scalarTy]] ∧
    printOpLowering [Ty.tensor, Ty.scalarTy]
      = Node.ponyPrint ([Ty.tensor, Ty.scalarTy].map convertTy) ∧
    ((∀ t ∈ [Ty.tensor, Ty.scalarTy], t ≠ Ty.tensor) →
      [Ty.tensor, Ty.scalarTy].map convertTy = [Ty.tensor, Ty.scalarTy]) ∧
    isLegalNode (printOpLowering [Ty.tensor, Ty.scalarTy]) = true :=
  printOpLowering_spec [Ty.tensor, Ty.scalarTy]

/-- Operations inside a lowered block, tagged just enough to tell buffer
allocations and deallocations (with the identity of the buffer they
manage) apart from the other operations. -/
inductive BlockOp
  | allocOp (buffer : Nat)
  | deallocOp (buffer : Nat)
  | other (tag : Nat)
  deriving DecidableEq

/-- A block of a lowered function: its body and its terminating
operation. Pony functions have no control flow, so a block is
straight-line code ending in its terminator. -/
structure Block where
  body : List BlockOp
  term : BlockOp
  deriving DecidableEq

/-- The operations of a block, in order, terminator last. -/
def Block.ops (b : Block) : List BlockOp := b.body ++ [b.term]

/-- The effect of `insertAllocAndDealloc` on the owning block: the new
allocation is created and moved immediately before the block's first
operation, and the matching deallocation is created and moved
immediately before the block's terminating (last) operation. -/
def insertAllocAndDealloc (buffer : Nat) (b : Block) : Block :=
  ⟨BlockOp.allocOp buffer :: b.body ++ [BlockOp.deallocOp buffer], b.term⟩

/-- C9: for a fresh buffer, the block after `insertAllocAndDealloc`
holds exactly one allocation of it, as the very first operation, and
exactly one matching deallocation, immediately before the terminator;
every operation of the original body — in particular every use of the
buffer, all of which the rules create inside the body — sits at a
position strictly between the allocation and the deallocation, inside
the same block. -/
theorem insertAllocAndDealloc_spec (buffer : Nat) (b : Block)
    (ha : BlockOp.allocOp buffer ∉ b.ops)
    (hd : BlockOp.deallocOp buffer ∉ b.ops) :
    (insertAllocAndDealloc buffer b).ops.count (BlockOp.allocOp buffer) = 1 ∧
    (insertAllocAndDealloc buffer b).ops.count (BlockOp.deallocOp buffer) = 1 ∧
    (insertAllocAndDealloc buffer b).ops.head? = some (BlockOp.allocOp buffer) ∧
    (insertAllocAndDealloc buffer b).ops[b.body.length + 1]?
      = some (BlockOp.deallocOp buffer) ∧
    (insertAllocAndDealloc buffer b).ops.getLast? = some b.term ∧
    (∀ k, k < b.body.length →
      (insertAllocAndDealloc buffer b).ops[k + 1]? = b.body[k]? ∧
      0 < k + 1 ∧ k + 1 < b.body.length + 1) := by
  simp only [Block.ops, List.mem_append, List.mem_singleton, not_or] at ha hd
  obtain ⟨ha1, ha2⟩ := ha
  obtain ⟨hd1, hd2⟩ := hd
  have hca : (b.body).count (BlockOp.allocOp buffer) = 0 := List.count_eq_zero.mpr ha1
  have hcd : (b.body).count (BlockOp.deallocOp buffer) = 0 := List.count_eq_zero.mpr hd1
  refine ⟨?_, ?_, rfl, ?_, ?_, ?_⟩
  · simp [insertAllocAndDealloc, Block.ops, List.count_append, List.count_cons,
      hca, Ne.symm ha2]
  · simp [insertAllocAndDealloc, Block.ops, List.count_append, List.count_cons,
      hcd, Ne.symm hd2]
  · show (BlockOp.allocOp buffer ::
        (b.body ++ [BlockOp.deallocOp buffer] ++ [b.term]))[b.body.length + 1]?
      = some (BlockOp.deallocOp buffer)
    rw [List.getElem?_cons_succ, List.getElem?_append]
    simp
  · show ((BlockOp.allocOp buffer :: b.body ++ [BlockOp.deallocOp buffer])
        ++ [b.term]).getLast? = some b.term
    rw [List.getLast?_concat]
  · intro k hk
    refine ⟨?_, Nat.succ_pos k, by omega⟩
    show (BlockOp.allocOp buffer ::
        (b.body ++ [BlockOp.deallocOp buffer] ++ [b.term]))[k + 1]? = b.body[k]?
    rw [List.getElem?_cons_succ, List.getElem?_append,
      if_pos (by simp only [List.length_append, List.length_singleton]; omega),
      List.getElem?_append, if_pos hk]

/-- Witness for C9: a block with a one-operation body and a terminator,
receiving buffer 5. -/
theorem insertAllocAndDealloc_spec_witness :
    (insertAllocAndDealloc 5 ⟨[BlockOp.other 0], BlockOp.other 9⟩).ops.count
        (BlockOp.allocOp 5) = 1 ∧
    (insertAllocAndDealloc 5 ⟨[BlockOp.other 0], BlockOp.other 9⟩).ops.count
        (BlockOp.deallocOp 5) = 1 ∧
    (insertAllocAndDealloc 5 ⟨[BlockOp.other 0], BlockOp.other 9⟩).ops.head?
      = some (BlockOp.allocOp 5) ∧
    (insertAllocAndDealloc 5 ⟨[BlockOp.other 0], BlockOp.other 9⟩).ops[
        ([BlockOp.other 0] : List BlockOp).length + 1]?
      = some (BlockOp.deallocOp 5) ∧
    (insertAllocAndDealloc 5 ⟨[BlockOp.other 0], BlockOp.other 9⟩).ops.getLast?
      = some (BlockOp.other 9) ∧
    (∀ k, k < ([BlockOp.other 0] : List BlockOp).length →
      (insertAllocAndDealloc 5 ⟨[BlockOp.other 0], BlockOp.other 9⟩).ops[k + 1]?
        = ([BlockOp.other 0] : List BlockOp)[k]? ∧
      0 < k + 1 ∧ k + 1 < ([BlockOp.other 0] : List BlockOp).length + 1) :=
  insertAllocAndDealloc_spec 5 ⟨[BlockOp.other 0], BlockOp.other 9⟩
    (by decide) (by decide)

end PonyLowering
